import Mathlib

/-!
Shallow embedding of the TestownikCLI quiz engine
(`src/quiz/question.py`, `src/quiz/quiz.py`) and proofs about it.

Modelling conventions:
* Python strings are Lean `String`s (file contents are the text after
  Python's universal-newline translation, so line breaks are `'\n'`).
* `str.isdigit` / `int(ch)` are modelled on the ASCII digits `'0'..'9'`
  (the only digits the program's own prompts and masks produce).
* Python dicts are association lists with unique keys in insertion order;
  JSON documents are a `JVal` inductive; runtime `AttributeError` /
  `TypeError` raised on ill-typed data are an `Except` error.
-/

namespace Testownik

/-- Python `str.strip(chars)`: drop leading characters belonging to `chars`. -/
def stripLeftChars (chars : List Char) (s : String) : String :=
  ⟨s.data.dropWhile (fun c => chars.contains c)⟩

/-- Python `str.rstrip(chars)`: drop trailing characters belonging to `chars`. -/
def stripRightChars (chars : List Char) (s : String) : String :=
  ⟨(s.data.reverse.dropWhile (fun c => chars.contains c)).reverse⟩

/-- Python `str.strip(chars)`: drop leading and trailing characters from `chars`. -/
def stripChars (chars : List Char) (s : String) : String :=
  stripRightChars chars (stripLeftChars chars s)

/-- Python `str.strip()` (no argument): drop surrounding whitespace. -/
def stripWs (s : String) : String :=
  ⟨((s.data.dropWhile Char.isWhitespace).reverse.dropWhile Char.isWhitespace).reverse⟩

/-- Helper for `pyLines`: accumulate the current line (reversed) while scanning. -/
def pyLinesAux : List Char → List Char → List (List Char)
  | acc, [] => if acc.isEmpty then [] else [acc.reverse]
  | acc, c :: cs =>
    if c = '\n' then (acc.reverse ++ ['\n']) :: pyLinesAux [] cs
    else pyLinesAux (c :: acc) cs

/-- The lines of a file as Python `readline`/`readlines` yield them:
each line keeps its terminating newline; a last line without a newline is
kept; `readline` past the end returns the empty string (`List.headD ""`
below). -/
def pyLines (s : String) : List String :=
  (pyLinesAux [] s.data).map (fun cs => ⟨cs⟩)

/-- `Question` from `src/quiz/question.py`, with `file` standing for the
source file's name (its identity). -/
structure Question where
  file : String
  question : String
  correct_answers : String
  available_answers : List String
deriving DecidableEq, Repr

/-- `List.isPrefixOf` on characters, written out so it evaluates by kernel
reduction (Python `str.startswith`). -/
def startsWithChars : List Char → List Char → Bool
  | [], _ => true
  | _ :: _, [] => false
  | a :: as, b :: bs => a == b && startsWithChars as bs

/-- Python `str.endswith`. -/
def endsWithChars (p s : List Char) : Bool :=
  startsWithChars p.reverse s.reverse

/-- `Question.should_process`: the file name ends in `.txt`. -/
def should_process (file : String) : Bool :=
  endsWithChars ".txt".data file.data

/-- The nested `is_img_tag` helper of `Question.from_file`:
`line.strip()`, then `.lower().startswith("[img]")` and
`.lower().endswith("[/img]")`. -/
def is_img_tag (line : String) : Bool :=
  let t := (stripWs line).data.map Char.toLower
  startsWithChars "[img]".data t && endsWithChars "[/img]".data t

/-- The body of `Question.from_file` acting on the file's text:
line 1 → `correct_answers` via `.strip("X\n")`, line 2 → `question` via
`.rstrip(" ?\n")`, remaining lines → `available_answers` via the
comprehension `[x.strip() for x in f.readlines() if x.strip() and not
is_img_tag(x)]`.  `readline` at end of file returns `""`. -/
def question_from_content (file : String) (content : String) : Question :=
  let ls := pyLines content
  { file := file
    question := stripRightChars [' ', '?', '\n'] ((ls.drop 1).headD "")
    correct_answers := stripChars ['X', '\n'] (ls.headD "")
    available_answers :=
      ((ls.drop 2).filter
        (fun x => !(stripWs x).data.isEmpty && !is_img_tag x)).map stripWs }

/-- `Question.from_file` in full: raises `ValueError` for a non-`.txt`
name and `FileNotFoundError` for a missing file, then parses the content
(the parsing itself never raises). -/
def from_file (fileExists : Bool) (file : String) (content : String) :
    Except String Question :=
  if !should_process file then .error "ValueError"
  else if !fileExists then .error "FileNotFoundError"
  else .ok (question_from_content file content)

/-- `Question.correct_indices`: 1-based positions of `'1'` in the mask. -/
def correct_indices (q : Question) : List Nat :=
  (q.correct_answers.data.enum.filter (fun p => p.2 = '1')).map (fun p => p.1 + 1)

/-- `Question.parse_user_input`: the set of values of the digit characters
of the input (`int(ch) for ch in user_input if ch.isdigit()`). -/
def parse_user_input (user_input : String) : Finset Nat :=
  ((user_input.data.filter Char.isDigit).map (fun c => c.toNat - 48)).toFinset

/-- `Question.answers_ok`: set equality against `correct_indices`. -/
def answers_ok (q : Question) (user_input : String) : Bool :=
  parse_user_input user_input = (correct_indices q).toFinset

/-- One value of the `stats` dict: `{"correct": ..., "incorrect": ...}`.
Counts are integers, as Python ints read back from a file may be. -/
structure Entry where
  correct : Int
  incorrect : Int
deriving DecidableEq, Repr

/-- The mutable progress state of a `Quiz`: the `stats` dict (an
association list in insertion order with unique keys, as a Python dict)
and the two legacy lists. -/
structure QuizState where
  stats : List (String × Entry)
  correct_questions : List String
  incorrect_questions : List String
deriving DecidableEq, Repr

/-- `self.stats.get(name)`: first-match association-list lookup. -/
def statsGet (stats : List (String × Entry)) (name : String) : Option Entry :=
  (stats.find? (fun p => p.1 == name)).map (fun p => p.2)

/-- `self.stats.get(name, {}).get("correct", 0)`. -/
def statsCorrect (stats : List (String × Entry)) (name : String) : Int :=
  match statsGet stats name with
  | some e => e.correct
  | none => 0

/-- `self.stats.get(name, {}).get("incorrect", 0)` (for stating claims). -/
def statsIncorrect (stats : List (String × Entry)) (name : String) : Int :=
  match statsGet stats name with
  | some e => e.incorrect
  | none => 0

/-- `dict.setdefault(name, {"correct": 0, "incorrect": 0})`: append a
zeroed entry when the key is absent. -/
def setdefaultStats (stats : List (String × Entry)) (name : String) :
    List (String × Entry) :=
  if stats.any (fun p => p.1 == name) then stats else stats ++ [(name, ⟨0, 0⟩)]

/-- `self.stats[name][key] += 1`: update the entry stored under `name`
(dict keys are unique, so updating the first match is the dict update). -/
def updateStats (stats : List (String × Entry)) (name : String)
    (f : Entry → Entry) : List (String × Entry) :=
  match stats with
  | [] => []
  | (k, e) :: rest =>
    if k == name then (k, f e) :: rest else (k, e) :: updateStats rest name f

/-- `setdefault` followed by incrementing one counter — the stats part of
`_record_result` and the per-name step of the legacy-list migration. -/
def incStat (stats : List (String × Entry)) (name : String) (correct : Bool) :
    List (String × Entry) :=
  updateStats (setdefaultStats stats name) name
    (fun e => if correct then { e with correct := e.correct + 1 }
              else { e with incorrect := e.incorrect + 1 })

/-- Adding `k` to one counter of an entry (used to state what a sequence
of increments amounts to). -/
def bumpEntry (correct : Bool) (k : Nat) (e : Entry) : Entry :=
  if correct then { e with correct := e.correct + k }
  else { e with incorrect := e.incorrect + k }

/-- `if name not in add_list: add_list.append(name)`. -/
def addUnique (l : List String) (name : String) : List String :=
  if l.contains name then l else l ++ [name]

/-- `rem_list[:] = [q for q in rem_list if q != name]`. -/
def removeAll (l : List String) (name : String) : List String :=
  l.filter (fun q => q != name)

/-- `Quiz._record_result`. -/
def record_result (st : QuizState) (name : String) (correct : Bool) : QuizState :=
  if correct then
    { stats := incStat st.stats name true
      correct_questions := addUnique st.correct_questions name
      incorrect_questions := removeAll st.incorrect_questions name }
  else
    { stats := incStat st.stats name false
      correct_questions := removeAll st.correct_questions name
      incorrect_questions := addUnique st.incorrect_questions name }

/-- A decoded JSON document (what `json.load` returns). -/
inductive JVal where
  | jnull
  | jbool (b : Bool)
  | jnum (n : Int)
  | jstr (s : String)
  | jarr (elems : List JVal)
  | jobj (fields : List (String × JVal))

/-- Python dict lookup `d.get(k)` on a decoded JSON object. -/
def jget (fields : List (String × JVal)) (k : String) : Option JVal :=
  (fields.find? (fun p => p.1 == k)).map (fun p => p.2)

/-- Python dict lookup with default, `d.get(k, dflt)`. -/
def jgetD (fields : List (String × JVal)) (k : String) (dflt : JVal) : JVal :=
  (jget fields k).getD dflt

/-- Runtime errors Python raises on ill-typed decoded data (these are NOT
caught by `_load_progress`, whose `except` clause only covers `OSError`,
`json.JSONDecodeError` and `UnicodeDecodeError`). -/
inductive PyError where
  | attributeError
  | typeError
deriving DecidableEq, Repr

/-- `{"correct": v.get("correct", 0), "incorrect": v.get("incorrect", 0)}`
for one value of the decoded `stats` mapping.  A value that is not an
object raises `AttributeError` at `v.get`.  Python would store a present
non-numeric count as-is and only fail on the first `+= 1`; we surface
that ill-typed case as an error already at load time, which agrees with
Python on every document whose counters are numbers or absent. -/
def loadEntry : JVal → Except PyError Entry
  | .jobj evs =>
    match jgetD evs "correct" (.jnum 0), jgetD evs "incorrect" (.jnum 0) with
    | .jnum c, .jnum i => .ok ⟨c, i⟩
    | _, _ => .error .typeError
  | _ => .error .attributeError

/-- The dict comprehension over `data["stats"].items()` in
`_load_progress`, item by item in document order. -/
def loadStatsList : List (String × JVal) → Except PyError (List (String × Entry))
  | [] => .ok []
  | p :: rest => do
    let e ← loadEntry p.2
    let tail ← loadStatsList rest
    pure ((p.1, e) :: tail)

/-- A decoded legacy list: `data.get("correct", [])` and its iteration.
Identities the program writes are always strings; any other element type
is surfaced as a `TypeError`-like failure. -/
def asStrList : JVal → Except PyError (List String)
  | .jarr elems =>
    let rec go : List JVal → Except PyError (List String)
      | [] => .ok []
      | .jstr s :: rest => do
        let tail ← go rest
        pure (s :: tail)
      | _ :: _ => .error .typeError
    go elems
  | _ => .error .typeError

/-- The two migration loops of `_load_progress`: bump `correct` once per
occurrence in the legacy `correct` list, then `incorrect` likewise. -/
def migrateLegacy (cl il : List String) : List (String × Entry) :=
  il.foldl (fun stats name => incStat stats name false)
    (cl.foldl (fun stats name => incStat stats name true) [])

/-- The state of the backing progress file as `_load_progress` can
encounter it. -/
inductive FileState where
  | absent
  | readError
  | decodeError
  | jsonError
  | content (j : JVal)

/-- `Quiz._load_progress`, acting on the freshly initialised state
(`stats = {}`, both lists empty).  The first four file states are the
absent / `OSError` / `UnicodeDecodeError` / `json.JSONDecodeError` paths,
all of which just `return`, leaving the state empty. -/
def load_progress (fs : FileState) : Except PyError QuizState :=
  match fs with
  | .absent => .ok ⟨[], [], []⟩
  | .readError => .ok ⟨[], [], []⟩
  | .decodeError => .ok ⟨[], [], []⟩
  | .jsonError => .ok ⟨[], [], []⟩
  | .content j =>
    match j with
    | .jobj fields =>
      match jget fields "stats" with
      | some (.jobj skvs) => do
        let stats ← loadStatsList skvs
        pure ⟨stats, [], []⟩
      | _ => do
        let cl ← asStrList (jgetD fields "correct" (.jarr []))
        let il ← asStrList (jgetD fields "incorrect" (.jarr []))
        pure ⟨migrateLegacy cl il, cl, il⟩
    | _ => .error .attributeError

/-- The JSON value for one `stats` entry as `_save_progress` writes it. -/
def entryToJson (e : Entry) : JVal :=
  .jobj [("correct", .jnum e.correct), ("incorrect", .jnum e.incorrect)]

/-- The document `Quiz._save_progress` serialises. -/
def save_progress (st : QuizState) : JVal :=
  .jobj [("stats", .jobj (st.stats.map (fun p => (p.1, entryToJson p.2)))),
         ("correct", .jarr (st.correct_questions.map .jstr)),
         ("incorrect", .jarr (st.incorrect_questions.map .jstr))]

/-- `Quiz._should_skip`. -/
def should_skip (skip_solved : Bool) (st : QuizState) (q : Question) : Bool :=
  skip_solved && 0 < statsCorrect st.stats q.file

/-- `Quiz.total_unique_correct`: `sum(1 for v in self.stats.values() if
v["correct"] > 0)`. -/
def total_unique_correct (st : QuizState) : Nat :=
  st.stats.countP (fun p => 0 < p.2.correct)

/-- `Quiz.total_unique_incorrect`. -/
def total_unique_incorrect (st : QuizState) : Nat :=
  st.stats.countP (fun p => p.2.correct == 0 && 0 < p.2.incorrect)

/-- `Quiz.ratio`, with Python float division modelled as exact rational
division. -/
def ratio (questions : List Question) (st : QuizState) : ℚ :=
  if questions.length ≠ 0 then (total_unique_correct st : ℚ) / questions.length
  else 0

/-- The calls a run makes on its interface (Presenter) plus the
save-progress side effect, in order. -/
inductive Event where
  | ask (name : String) (idx total : Nat)
  | notifyResult (name : String) (correct : Bool) (idx total : Nat)
  | saveProgress
  | pause
  | showSummary
deriving DecidableEq, Repr

/-- `Quiz._process_single`: ask, evaluate, record, notify, maybe save,
pause.  `inputs idx` is the user's raw answer to the question presented
at 1-based position `idx` (the run is deterministic in these inputs). -/
def process_single (upd : Bool) (inputs : Nat → String) (st : QuizState)
    (q : Question) (idx total : Nat) : QuizState × List Event :=
  let correct := answers_ok q (inputs idx)
  (record_result st q.file correct,
    [Event.ask q.file idx total, Event.notifyResult q.file correct idx total]
      ++ (if upd then [Event.saveProgress] else []) ++ [Event.pause])

/-- The `for` loop of `Quiz.run` from position `idx` onwards. -/
def run_from (skip upd : Bool) (inputs : Nat → String) (total : Nat) :
    List Question → Nat → QuizState → QuizState × List Event
  | [], _, st => (st, [])
  | q :: rest, idx, st =>
    if should_skip skip st q then run_from skip upd inputs total rest (idx + 1) st
    else
      let (st1, evs) := process_single upd inputs st q idx total
      let (st2, evs2) := run_from skip upd inputs total rest (idx + 1) st1
      (st2, evs ++ evs2)

/-- `Quiz.run`: iterate over the whole question list starting at position
1, then show the summary. -/
def run (skip upd : Bool) (inputs : Nat → String) (questions : List Question)
    (st : QuizState) : QuizState × List Event :=
  let r := run_from skip upd inputs questions.length questions 1 st
  (r.1, r.2 ++ [Event.showSummary])

/-- The 1-based positions at which the interface's ask operation is
invoked during a run. -/
def askIndices (evs : List Event) : List Nat :=
  evs.filterMap (fun e => match e with | .ask _ i _ => some i | _ => none)

/-- The legacy-list invariant claimed by the spec: no duplicates inside
either list and no identity in both. -/
def listInv (st : QuizState) : Prop :=
  st.correct_questions.Nodup ∧ st.incorrect_questions.Nodup ∧
    ∀ n, n ∈ st.correct_questions → n ∉ st.incorrect_questions

/-- Modelled from the spec (§4.1, claim wording): the prompt with
"trailing whitespace and trailing '?' characters" stripped.  Used only to
compare the spec's wording against the code's `rstrip(" ?\n")`. -/
def specStripTrailingWsQm (s : String) : String :=
  ⟨(s.data.reverse.dropWhile (fun c => c.isWhitespace || c == '?')).reverse⟩

theorem statsGet_nil (name : String) : statsGet [] name = none := rfl

theorem statsGet_cons (k : String) (e : Entry) (rest : List (String × Entry))
    (name : String) :
    statsGet ((k, e) :: rest) name = if k = name then some e else statsGet rest name := by
  simp only [statsGet, List.find?_cons]
  by_cases h : k = name
  · simp [h]
  · have hb : (k == name) = false := by simp [h]
    simp [h, hb]

theorem statsGet_isSome_iff_any (stats : List (String × Entry)) (name : String) :
    (statsGet stats name).isSome = stats.any (fun p => p.1 == name) := by
  induction stats with
  | nil => rfl
  | cons p rest ih =>
    obtain ⟨k, e⟩ := p
    rw [statsGet_cons]
    by_cases h : k = name
    · simp [h]
    · simp [h, ih]

theorem statsGet_updateStats (stats : List (String × Entry)) (nm name : String)
    (f : Entry → Entry) :
    statsGet (updateStats stats nm f) name
      = if nm = name then (statsGet stats name).map f else statsGet stats name := by
  induction stats with
  | nil => by_cases h : nm = name <;> simp [updateStats, statsGet, h]
  | cons p rest ih =>
    obtain ⟨k, e⟩ := p
    by_cases hk : k = nm
    · subst hk
      simp only [updateStats, beq_self_eq_true, if_true]
      rw [statsGet_cons, statsGet_cons]
      by_cases hn : k = name
      · subst hn
        simp
      · simp [hn]
    · have hb : (k == nm) = false := by simp [hk]
      simp only [updateStats, hb, Bool.false_eq_true, if_false]
      rw [statsGet_cons, statsGet_cons]
      by_cases hn : k = name
      · subst hn
        have : ¬ nm = k := fun h => hk h.symm
        simp [this]
      · simp only [hn, if_false]
        exact ih

theorem statsGet_setdefault (stats : List (String × Entry)) (nm name : String) :
    statsGet (setdefaultStats stats nm) name
      = if nm = name then some ((statsGet stats nm).getD ⟨0, 0⟩)
        else statsGet stats name := by
  simp only [setdefaultStats]
  by_cases hpres : stats.any (fun p => p.1 == nm) = true
  · simp only [hpres, if_true]
    by_cases h : nm = name
    · subst h
      have hsome : (statsGet stats nm).isSome = true := by
        rw [statsGet_isSome_iff_any]; exact hpres
      obtain ⟨e, he⟩ := Option.isSome_iff_exists.mp hsome
      simp [he]
    · simp [h]
  · simp only [hpres, Bool.false_eq_true, if_false]
    have habs : statsGet stats nm = none := by
      rw [← Option.not_isSome_iff_eq_none, statsGet_isSome_iff_any]
      exact hpres
    have happ : ∀ l : List (String × Entry),
        statsGet (l ++ [(nm, (⟨0, 0⟩ : Entry))]) name
          = if (statsGet l name).isSome then statsGet l name
            else if nm = name then some ⟨0, 0⟩ else none := by
      intro l
      induction l with
      | nil => by_cases h : nm = name <;> simp [statsGet_cons, statsGet, h]
      | cons p rest ih =>
        obtain ⟨k, e⟩ := p
        rw [List.cons_append, statsGet_cons, statsGet_cons]
        by_cases hk : k = name
        · simp [hk]
        · simp only [hk, if_false]
          exact ih
    rw [happ]
    by_cases h : nm = name
    · subst h
      rw [habs]
      simp
    · simp only [h, if_false]
      cases hg : statsGet stats name <;> simp

theorem statsGet_incStat (stats : List (String × Entry)) (nm name : String) (b : Bool) :
    statsGet (incStat stats nm b) name
      = if nm = name then some (bumpEntry b 1 ((statsGet stats nm).getD ⟨0, 0⟩))
        else statsGet stats name := by
  simp only [incStat, statsGet_updateStats, statsGet_setdefault]
  by_cases h : nm = name
  · subst h
    simp only [if_pos rfl]
    cases b <;> simp [bumpEntry]
  · simp [h]

theorem bumpEntry_comp (b : Bool) (k : Nat) (e : Entry) :
    bumpEntry b k (bumpEntry b 1 e) = bumpEntry b (k + 1) e := by
  cases b <;> simp [bumpEntry] <;> ring

theorem statsGet_foldl_inc (b : Bool) (l : List String) :
    ∀ (stats : List (String × Entry)) (name : String),
      statsGet (l.foldl (fun s n => incStat s n b) stats) name
        = if 0 < l.count name
          then some (bumpEntry b (l.count name) ((statsGet stats name).getD ⟨0, 0⟩))
          else statsGet stats name := by
  induction l with
  | nil => intro stats name; simp
  | cons n t ih =>
    intro stats name
    rw [List.foldl_cons]
    rw [ih (incStat stats n b) name]
    rw [statsGet_incStat]
    by_cases hn : n = name
    · subst hn
      have hc : (n :: t).count n = t.count n + 1 := by
        simp [List.count_cons]
      rw [hc]
      simp only [if_pos rfl]
      have hpos1 : 0 < t.count n + 1 := Nat.succ_pos _
      by_cases ht : 0 < t.count n
      · rw [if_pos ht, if_pos hpos1]
        simp [bumpEntry_comp]
      · have hz : t.count n = 0 := by omega
        rw [if_neg ht, if_pos hpos1, hz]
        simp
    · have hc : (n :: t).count name = t.count name := by
        simp [List.count_cons, Ne.symm hn]
      rw [hc]
      simp [hn]

theorem statsGet_migrateLegacy (cl il : List String) (name : String) :
    statsGet (migrateLegacy cl il) name
      = if name ∈ cl ∨ name ∈ il
        then some ⟨(cl.count name : Int), (il.count name : Int)⟩
        else none := by
  unfold migrateLegacy
  rw [statsGet_foldl_inc, statsGet_foldl_inc, statsGet_nil]
  by_cases hcl : 0 < cl.count name
  · have hmc : name ∈ cl := List.count_pos_iff.mp hcl
    rw [if_pos hcl]
    by_cases hil : 0 < il.count name
    · rw [if_pos hil, if_pos (Or.inl hmc)]
      simp [bumpEntry]
    · have hz : il.count name = 0 := by omega
      rw [if_neg hil, if_pos (Or.inl hmc), hz]
      simp [bumpEntry]
  · have hncl : name ∉ cl := fun h => hcl (List.count_pos_iff.mpr h)
    have hzc : cl.count name = 0 := by omega
    rw [if_neg hcl]
    by_cases hil : 0 < il.count name
    · have hmi : name ∈ il := List.count_pos_iff.mp hil
      rw [if_pos hil, if_pos (Or.inr hmi), hzc]
      simp [bumpEntry]
    · have hni : name ∉ il := fun h => hil (List.count_pos_iff.mpr h)
      rw [if_neg hil, if_neg (by simp [hncl, hni])]

theorem loadEntry_entryToJson (e : Entry) : loadEntry (entryToJson e) = .ok e := rfl

theorem loadStatsList_saved (stats : List (String × Entry)) :
    loadStatsList (stats.map (fun p => (p.1, entryToJson p.2))) = .ok stats := by
  induction stats with
  | nil => rfl
  | cons p rest ih =>
    simp only [List.map_cons, loadStatsList, loadEntry_entryToJson, ih]
    rfl

theorem load_progress_counter (fields skvs : List (String × JVal))
    (stats : List (String × Entry))
    (hget : jget fields "stats" = some (.jobj skvs))
    (hload : loadStatsList skvs = .ok stats) :
    load_progress (.content (.jobj fields)) = .ok ⟨stats, [], []⟩ := by
  simp only [load_progress, hget, hload]
  rfl

theorem load_progress_legacy (fields : List (String × JVal)) (cl il : List String)
    (hnostats : ∀ skvs, jget fields "stats" ≠ some (.jobj skvs))
    (hcl : asStrList (jgetD fields "correct" (.jarr [])) = .ok cl)
    (hil : asStrList (jgetD fields "incorrect" (.jarr [])) = .ok il) :
    load_progress (.content (.jobj fields)) = .ok ⟨migrateLegacy cl il, cl, il⟩ := by
  rcases hj : jget fields "stats" with _ | v
  · simp only [load_progress, hj, hcl, hil]
    rfl
  · cases v with
    | jobj skvs => exact absurd hj (hnostats skvs)
    | jnull => simp only [load_progress, hj, hcl, hil]; rfl
    | jbool b => simp only [load_progress, hj, hcl, hil]; rfl
    | jnum n => simp only [load_progress, hj, hcl, hil]; rfl
    | jstr s => simp only [load_progress, hj, hcl, hil]; rfl
    | jarr es => simp only [load_progress, hj, hcl, hil]; rfl

theorem parsed_digit_le_nine (s : String) (n : Nat) (h : n ∈ parse_user_input s) :
    n ≤ 9 := by
  simp only [parse_user_input, List.mem_toFinset, List.mem_map, List.mem_filter] at h
  obtain ⟨c, ⟨_, hd⟩, hv⟩ := h
  simp only [Char.isDigit, Bool.and_eq_true, decide_eq_true_eq] at hd
  obtain ⟨h1, h2⟩ := hd
  have g2 : c.val.toNat ≤ 57 := h2
  subst hv
  simp [Char.toNat]
  omega

theorem run_from_skip_step (skip upd : Bool) (inputs : Nat → String) (total : Nat)
    (q : Question) (rest : List Question) (idx : Nat) (st : QuizState)
    (h : should_skip skip st q = true) :
    run_from skip upd inputs total (q :: rest) idx st
      = run_from skip upd inputs total rest (idx + 1) st := by
  simp [run_from, h]

theorem run_from_present_step (skip upd : Bool) (inputs : Nat → String) (total : Nat)
    (q : Question) (rest : List Question) (idx : Nat) (st : QuizState)
    (h : should_skip skip st q = false) :
    run_from skip upd inputs total (q :: rest) idx st
      = ((run_from skip upd inputs total rest (idx + 1)
            (record_result st q.file (answers_ok q (inputs idx)))).1,
         ([Event.ask q.file idx total,
            Event.notifyResult q.file (answers_ok q (inputs idx)) idx total]
            ++ (if upd then [Event.saveProgress] else []) ++ [Event.pause])
          ++ (run_from skip upd inputs total rest (idx + 1)
                (record_result st q.file (answers_ok q (inputs idx)))).2) := by
  simp [run_from, h, process_single]

theorem askIndices_append (a b : List Event) :
    askIndices (a ++ b) = askIndices a ++ askIndices b :=
  List.filterMap_append a b _

theorem askIndices_block (name : String) (c upd : Bool) (idx total : Nat) :
    askIndices ([Event.ask name idx total, Event.notifyResult name c idx total]
      ++ (if upd then [Event.saveProgress] else []) ++ [Event.pause]) = [idx] := by
  cases upd <;> rfl

theorem run_from_ask_ordered (skip upd : Bool) (inputs : Nat → String) (total : Nat) :
    ∀ (qs : List Question) (idx : Nat) (st : QuizState),
      (∀ i ∈ askIndices (run_from skip upd inputs total qs idx st).2, idx ≤ i) ∧
      (askIndices (run_from skip upd inputs total qs idx st).2).Pairwise (· < ·) := by
  intro qs
  induction qs with
  | nil => intro idx st; simp [run_from, askIndices]
  | cons q rest ih =>
    intro idx st
    by_cases h : should_skip skip st q = true
    · rw [run_from_skip_step skip upd inputs total q rest idx st h]
      obtain ⟨hb, hp⟩ := ih (idx + 1) st
      exact ⟨fun i hi => Nat.le_of_succ_le (hb i hi), hp⟩
    · have hfalse : should_skip skip st q = false := by
        cases hsk : should_skip skip st q
        · rfl
        · exact absurd hsk h
      rw [run_from_present_step skip upd inputs total q rest idx st hfalse]
      obtain ⟨hb, hp⟩ :=
        ih (idx + 1) (record_result st q.file (answers_ok q (inputs idx)))
      rw [askIndices_append, askIndices_block, List.singleton_append]
      constructor
      · intro i hi
        rcases List.mem_cons.mp hi with rfl | hi
        · exact Nat.le_refl i
        · exact Nat.le_of_succ_le (hb i hi)
      · exact List.pairwise_cons.mpr ⟨fun j hj => Nat.lt_of_succ_le (hb j hj), hp⟩

theorem mem_addUnique_self (l : List String) (n : String) : n ∈ addUnique l n := by
  unfold addUnique
  by_cases h : l.contains n = true
  · rw [if_pos h]
    exact List.mem_of_elem_eq_true h
  · rw [if_neg h]
    exact List.mem_append_right l (List.mem_singleton.mpr rfl)

theorem mem_addUnique (l : List String) (n m : String) (h : m ∈ addUnique l n) :
    m = n ∨ m ∈ l := by
  unfold addUnique at h
  by_cases hc : l.contains n = true
  · rw [if_pos hc] at h
    exact Or.inr h
  · rw [if_neg hc] at h
    rcases List.mem_append.mp h with h | h
    · exact Or.inr h
    · exact Or.inl (List.mem_singleton.mp h)

theorem nodup_addUnique (l : List String) (n : String) (h : l.Nodup) :
    (addUnique l n).Nodup := by
  unfold addUnique
  by_cases hc : l.contains n = true
  · rw [if_pos hc]; exact h
  · rw [if_neg hc]
    have hn : n ∉ l := fun hm => hc (List.elem_eq_true_of_mem hm)
    simp [List.nodup_append, h, hn]

theorem not_mem_removeAll (l : List String) (n : String) : n ∉ removeAll l n := by
  unfold removeAll
  intro h
  have := List.of_mem_filter h
  simp at this

theorem mem_of_mem_removeAll (l : List String) (n m : String)
    (h : m ∈ removeAll l n) : m ∈ l :=
  List.mem_of_mem_filter h

theorem nodup_removeAll (l : List String) (n : String) (h : l.Nodup) :
    (removeAll l n).Nodup :=
  List.Nodup.filter _ h

theorem record_result_listInv (st : QuizState) (name : String) (b : Bool)
    (h : listInv st) : listInv (record_result st name b) := by
  obtain ⟨hc, hi, hd⟩ := h
  cases b
  · refine ⟨nodup_removeAll _ _ hc, nodup_addUnique _ _ hi, ?_⟩
    intro m hm hmem
    rcases mem_addUnique _ _ _ hmem with rfl | hmem2
    · exact not_mem_removeAll _ _ hm
    · exact hd m (mem_of_mem_removeAll _ _ _ hm) hmem2
  · refine ⟨nodup_addUnique _ _ hc, nodup_removeAll _ _ hi, ?_⟩
    intro m hm hmem
    rcases mem_addUnique _ _ _ hm with rfl | hm2
    · exact not_mem_removeAll _ _ hmem
    · exact hd m hm2 (mem_of_mem_removeAll _ _ _ hmem)

theorem countP_stats_eq_card (p : Entry → Bool) :
    ∀ (stats : List (String × Entry)), (stats.map Prod.fst).Nodup →
      stats.countP (fun q => p q.2)
        = ((stats.map Prod.fst).toFinset.filter
            (fun n => (statsGet stats n).elim false p = true)).card := by
  intro stats
  induction stats with
  | nil => intro _; simp
  | cons q rest ih =>
    intro hnodup
    obtain ⟨k, e⟩ := q
    simp only [List.map_cons, List.nodup_cons] at hnodup
    obtain ⟨hk, hrest⟩ := hnodup
    have hkF : k ∉ (rest.map Prod.fst).toFinset := by
      simpa using hk
    rw [List.countP_cons]
    rw [ih hrest]
    simp only [List.map_cons, List.toFinset_cons]
    rw [Finset.filter_insert]
    have hcongr : Finset.filter
        (fun n => (statsGet ((k, e) :: rest) n).elim false p = true)
          (rest.map Prod.fst).toFinset
        = Finset.filter (fun n => (statsGet rest n).elim false p = true)
            (rest.map Prod.fst).toFinset := by
      apply Finset.filter_congr
      intro n hn
      have hne : k ≠ n := by
        intro h
        subst h
        exact hkF hn
      rw [statsGet_cons, if_neg hne]
    have hself : (statsGet ((k, e) :: rest) k).elim false p = p e := by
      rw [statsGet_cons, if_pos rfl]
      rfl
    rw [hcongr, hself]
    by_cases hp : p e = true
    · simp only [hp, if_true]
      rw [Finset.card_insert_of_not_mem (fun hmem => hkF (Finset.mem_of_mem_filter _ hmem))]
    · have hpf : p e = false := by
        cases hpe : p e
        · rfl
        · exact absurd hpe hp
      simp [hpf]

/-- C1: `answers_ok` judges an answer correct exactly when the set of
values of the digit characters of the input (every digit individually
significant, all non-digit characters ignored) equals the set of
`correct_indices`, and the inputs "1 3", "13", " 1   3 " and "3 1" all
parse to the set \x7b1, 3\x7d. -/
theorem answers_judged_by_digit_set :
    (∀ (q : Question) (s : String),
      answers_ok q s = true ↔ parse_user_input s = (correct_indices q).toFinset) ∧
    (∀ (s : String) (n : Nat),
      n ∈ parse_user_input s ↔ ∃ c, c ∈ s.data ∧ c.isDigit = true ∧ c.toNat - 48 = n) ∧
    (parse_user_input "1 3" = {1, 3} ∧ parse_user_input "13" = {1, 3} ∧
      parse_user_input " 1   3 " = {1, 3} ∧ parse_user_input "3 1" = {1, 3}) := by
  refine ⟨fun q s => ?_, fun s n => ?_, by decide, by decide, by decide, by decide⟩
  · simp [answers_ok]
  · simp only [parse_user_input, List.mem_toFinset, List.mem_map, List.mem_filter]
    constructor
    · rintro ⟨c, ⟨hc, hd⟩, hv⟩
      exact ⟨c, hc, hd, hv⟩
    · rintro ⟨c, hc, hd, hv⟩
      exact ⟨c, ⟨hc, hd⟩, hv⟩

/-- C2: with `skip_solved` enabled, a question whose stored correct count
is positive when it is reached is passed over with no interface call and
no state change, and within one run no position is ever asked twice (the
ask positions of the event trace are pairwise distinct). -/
theorem skip_and_single_presentation :
    (∀ (upd : Bool) (inputs : Nat → String) (total : Nat) (q : Question)
        (rest : List Question) (idx : Nat) (st : QuizState),
      0 < statsCorrect st.stats q.file →
      run_from true upd inputs total (q :: rest) idx st
        = run_from true upd inputs total rest (idx + 1) st) ∧
    (∀ (skip upd : Bool) (inputs : Nat → String) (questions : List Question)
        (st : QuizState), (askIndices (run skip upd inputs questions st).2).Nodup) := by
  constructor
  · intro upd inputs total q rest idx st hpos
    apply run_from_skip_step
    simp [should_skip, hpos]
  · intro skip upd inputs questions st
    have h := (run_from_ask_ordered skip upd inputs questions.length questions 1 st).2
    have heq : askIndices (run skip upd inputs questions st).2
        = askIndices (run_from skip upd inputs questions.length questions 1 st).2 := by
      simp [run, askIndices_append, askIndices]
    rw [heq]
    exact h.imp (fun hlt => Nat.ne_of_lt hlt)

/-- C2 witness: a concrete solved question is skipped without any event
and without touching the state. -/
theorem skip_and_single_presentation_w :
    run_from true false (fun _ => "") 1 [⟨"a.txt", "Q", "1", []⟩] 1
        ⟨[("a.txt", ⟨1, 0⟩)], ["a.txt"], []⟩
      = run_from true false (fun _ => "") 1 [] 2 ⟨[("a.txt", ⟨1, 0⟩)], ["a.txt"], []⟩ :=
  skip_and_single_presentation.1 false (fun _ => "") 1 ⟨"a.txt", "Q", "1", []⟩ [] 1
    ⟨[("a.txt", ⟨1, 0⟩)], ["a.txt"], []⟩ (by decide)

/-- C3: every failing backing-file state — absent file, read error,
decode error, or JSON parse error — loads as the empty store (no
counters, both legacy lists empty) instead of propagating an error. -/
theorem load_failure_yields_empty_store :
    load_progress .absent = .ok ⟨[], [], []⟩ ∧
    load_progress .readError = .ok ⟨[], [], []⟩ ∧
    load_progress .decodeError = .ok ⟨[], [], []⟩ ∧
    load_progress .jsonError = .ok ⟨[], [], []⟩ ∧
    (∀ name, statsCorrect ([] : List (String × Entry)) name = 0 ∧
      statsIncorrect ([] : List (String × Entry)) name = 0) :=
  ⟨rfl, rfl, rfl, rfl, fun _ => ⟨rfl, rfl⟩⟩

/-- C4 counterexample: a source with fewer than 2 lines (here: the empty
source) parses successfully instead of failing, refuting that parsing
"fails ... exactly when the source has fewer than 2 lines". -/
theorem short_source_parses_successfully :
    (pyLines "").length < 2 ∧
    from_file true "q.txt" "" = .ok ⟨"q.txt", "", "", []⟩ := by
  constructor
  · decide
  · rfl

/-- C4 amended: parsing never fails on the source content (`from_file`
fails only for a non-`.txt` name or a missing file); a short source reads
the missing lines as empty strings, and a source whose remaining lines
all die in the choice filter parses to an empty choices list. -/
theorem parse_never_fails_on_content :
    (∀ (file content : String), should_process file = true →
      from_file true file content = .ok (question_from_content file content)) ∧
    (∀ (file content : String),
      ((pyLines content).drop 2).filter
          (fun x => !(stripWs x).data.isEmpty && !is_img_tag x) = [] →
      (question_from_content file content).available_answers = []) ∧
    from_file true "q.txt" "" = .ok ⟨"q.txt", "", "", []⟩ := by
  refine ⟨?_, ?_, rfl⟩
  · intro file content hsp
    simp [from_file, hsp]
  · intro file content hfilter
    simp [question_from_content, hfilter]

/-- C4 witness: a two-line source whose only candidate choice lines are
blank or an image tag parses successfully with an empty choices list. -/
theorem parse_never_fails_on_content_w :
    from_file true "q.txt" "1\nWhat?\n\n[img]07.png[/img]"
        = .ok (question_from_content "q.txt" "1\nWhat?\n\n[img]07.png[/img]") ∧
    (question_from_content "q.txt" "1\nWhat?\n\n[img]07.png[/img]").available_answers
        = [] :=
  ⟨parse_never_fails_on_content.1 "q.txt" _ (by decide),
   parse_never_fails_on_content.2.1 "q.txt" _ (by decide)⟩

/-- C5: saving a store and loading the result reproduces the identical
stats entries, hence identical correct/incorrect counts per identity. -/
theorem save_load_round_trip (st : QuizState) :
    ∃ loaded : QuizState,
      load_progress (.content (save_progress st)) = .ok loaded ∧
      loaded.stats = st.stats ∧
      ∀ name, statsCorrect loaded.stats name = statsCorrect st.stats name ∧
        statsIncorrect loaded.stats name = statsIncorrect st.stats name := by
  refine ⟨⟨st.stats, [], []⟩, ?_, rfl, fun _ => ⟨rfl, rfl⟩⟩
  show (do
    let stats ← loadStatsList (st.stats.map (fun p => (p.1, entryToJson p.2)))
    pure (⟨stats, [], []⟩ : QuizState)) = Except.ok ⟨st.stats, [], []⟩
  rw [loadStatsList_saved]
  rfl

/-- C6: if the decoded document has an object under the "stats" key the
store is loaded from that mapping (absent count fields default to 0, the
legacy lists do not feed the counters); otherwise the two legacy lists
are converted by incrementing the matching counter once per occurrence,
starting from a zeroed entry for a fresh identity. -/
theorem load_format_detection_and_migration :
    (∀ (fields skvs : List (String × JVal)) (stats : List (String × Entry)),
      jget fields "stats" = some (.jobj skvs) →
      loadStatsList skvs = .ok stats →
      load_progress (.content (.jobj fields)) = .ok ⟨stats, [], []⟩) ∧
    (∀ evs : List (String × JVal), jget evs "correct" = none →
      jget evs "incorrect" = none → loadEntry (.jobj evs) = .ok ⟨0, 0⟩) ∧
    (∀ (evs : List (String × JVal)) (c : Int), jget evs "correct" = some (.jnum c) →
      jget evs "incorrect" = none → loadEntry (.jobj evs) = .ok ⟨c, 0⟩) ∧
    (∀ (evs : List (String × JVal)) (i : Int), jget evs "correct" = none →
      jget evs "incorrect" = some (.jnum i) → loadEntry (.jobj evs) = .ok ⟨0, i⟩) ∧
    (∀ (fields : List (String × JVal)) (cl il : List String),
      (∀ skvs, jget fields "stats" ≠ some (.jobj skvs)) →
      asStrList (jgetD fields "correct" (.jarr [])) = .ok cl →
      asStrList (jgetD fields "incorrect" (.jarr [])) = .ok il →
      load_progress (.content (.jobj fields)) = .ok ⟨migrateLegacy cl il, cl, il⟩ ∧
      ∀ name, statsGet (migrateLegacy cl il) name
        = if name ∈ cl ∨ name ∈ il
          then some ⟨(cl.count name : Int), (il.count name : Int)⟩
          else none) := by
  refine ⟨load_progress_counter, ?_, ?_, ?_, ?_⟩
  · intro evs h1 h2
    simp [loadEntry, jgetD, h1, h2]
  · intro evs c h1 h2
    simp [loadEntry, jgetD, h1, h2]
  · intro evs i h1 h2
    simp [loadEntry, jgetD, h1, h2]
  · intro fields cl il hns hcl hil
    exact ⟨load_progress_legacy fields cl il hns hcl hil,
           fun name => statsGet_migrateLegacy cl il name⟩

/-- C6 witness: a concrete counter-format document and a concrete
legacy-format document load as the claim describes. -/
theorem load_format_detection_and_migration_w :
    load_progress (.content (.jobj
        [("stats", .jobj [("a.txt", .jobj [("correct", .jnum 2)])]),
         ("correct", .jarr [.jstr "b.txt"])]))
      = .ok ⟨[("a.txt", ⟨2, 0⟩)], [], []⟩ ∧
    load_progress (.content (.jobj
        [("correct", .jarr [.jstr "a", .jstr "a"]),
         ("incorrect", .jarr [.jstr "b"])]))
      = .ok ⟨migrateLegacy ["a", "a"] ["b"], ["a", "a"], ["b"]⟩ ∧
    statsGet (migrateLegacy ["a", "a"] ["b"]) "a"
      = if "a" ∈ ["a", "a"] ∨ "a" ∈ ["b"]
        then some ⟨(List.count "a" ["a", "a"] : Int), (List.count "a" ["b"] : Int)⟩
        else none := by
  have hleg := load_format_detection_and_migration.2.2.2.2
    [("correct", .jarr [.jstr "a", .jstr "a"]), ("incorrect", .jarr [.jstr "b"])]
    ["a", "a"] ["b"]
    (fun skvs h => by
      rw [show jget [("correct", JVal.jarr [.jstr "a", .jstr "a"]),
            ("incorrect", JVal.jarr [.jstr "b"])] "stats" = none from rfl] at h
      exact Option.noConfusion h)
    rfl rfl
  exact ⟨load_format_detection_and_migration.1 _ _ _ rfl rfl, hleg.1, hleg.2 "a"⟩

/-- C7 counterexample: loading a legacy document whose "correct" list
holds the same identity twice yields a state whose correct list has a
duplicate, refuting the uniqueness part of the claim for states reached
by a bare load. -/
theorem legacy_load_breaks_list_uniqueness :
    load_progress (.content (.jobj [("correct", .jarr [.jstr "a", .jstr "a"])]))
      = .ok ⟨[("a", ⟨2, 0⟩)], ["a", "a"], []⟩ ∧
    ¬ (["a", "a"] : List String).Nodup := by
  constructor
  · rfl
  · decide

/-- C7 amended: starting from any state whose legacy lists are
duplicate-free and disjoint (as every state the program itself saves is),
any sequence of `record_result` calls preserves that invariant, and each
call puts the identity in the list matching the new outcome and removes
it from the other list. -/
theorem record_result_latest_outcome_invariant :
    (∀ (st : QuizState) (name : String) (b : Bool),
      listInv st → listInv (record_result st name b)) ∧
    (∀ (ops : List (String × Bool)) (st : QuizState), listInv st →
      listInv (ops.foldl (fun s p => record_result s p.1 p.2) st)) ∧
    (∀ (st : QuizState) (name : String),
      name ∈ (record_result st name true).correct_questions ∧
      name ∉ (record_result st name true).incorrect_questions ∧
      name ∈ (record_result st name false).incorrect_questions ∧
      name ∉ (record_result st name false).correct_questions) := by
  refine ⟨record_result_listInv, ?_, ?_⟩
  · intro ops
    induction ops with
    | nil => intro st h; exact h
    | cons p rest ih =>
      intro st h
      exact ih _ (record_result_listInv st p.1 p.2 h)
  · intro st name
    exact ⟨mem_addUnique_self _ _, not_mem_removeAll _ _,
           mem_addUnique_self _ _, not_mem_removeAll _ _⟩

/-- C7 witness: recording an incorrect result moves a concrete identity
out of the correct list while keeping the invariant. -/
theorem record_result_latest_outcome_invariant_w :
    listInv (record_result ⟨[], ["x"], []⟩ "x" false) :=
  record_result_latest_outcome_invariant.1 ⟨[], ["x"], []⟩ "x" false
    ⟨by decide, by decide, fun n _ h => absurd h (List.not_mem_nil n)⟩

/-- C8: `total_unique_correct` counts the identities with a positive
correct count, `total_unique_incorrect` counts those with zero correct
and positive incorrect count (a correct attempt dominates), and the
success ratio is the quotient by the question count, 0 for no
questions. -/
theorem unique_counts_and_ratio (st : QuizState) (questions : List Question)
    (hnodup : (st.stats.map Prod.fst).Nodup) :
    total_unique_correct st
      = ((st.stats.map Prod.fst).toFinset.filter
          (fun n => 0 < statsCorrect st.stats n)).card ∧
    total_unique_incorrect st
      = ((st.stats.map Prod.fst).toFinset.filter
          (fun n => statsCorrect st.stats n = 0 ∧ 0 < statsIncorrect st.stats n)).card ∧
    (questions ≠ [] →
      ratio questions st = (total_unique_correct st : ℚ) / questions.length) ∧
    (questions = [] → ratio questions st = 0) := by
  refine ⟨?_, ?_, ?_, ?_⟩
  · rw [show total_unique_correct st
        = st.stats.countP (fun q => (fun e => decide (0 < e.correct)) q.2) from rfl]
    rw [countP_stats_eq_card (fun e => decide (0 < e.correct)) st.stats hnodup]
    congr 1
    apply Finset.filter_congr
    intro n _
    cases hg : statsGet st.stats n with
    | none => simp [statsCorrect, hg]
    | some e => simp [statsCorrect, hg, Option.elim]
  · rw [show total_unique_incorrect st
        = st.stats.countP
            (fun q => (fun e => e.correct == 0 && decide (0 < e.incorrect)) q.2) from rfl]
    rw [countP_stats_eq_card (fun e => e.correct == 0 && decide (0 < e.incorrect))
          st.stats hnodup]
    congr 1
    apply Finset.filter_congr
    intro n _
    cases hg : statsGet st.stats n with
    | none => simp [statsCorrect, statsIncorrect, hg]
    | some e => simp [statsCorrect, statsIncorrect, hg, Option.elim]
  · intro hne
    have hlen : questions.length ≠ 0 := by
      intro h
      exact hne (List.length_eq_zero.mp h)
    simp [ratio, hlen]
  · intro h
    subst h
    simp [ratio]

/-- C8 witness: the unique-correct count of a concrete two-entry store
equals the cardinality of its positive-correct key set. -/
theorem unique_counts_and_ratio_w :
    total_unique_correct ⟨[("a", ⟨1, 2⟩), ("b", ⟨0, 3⟩)], [], []⟩
      = (((([("a", (⟨1, 2⟩ : Entry)), ("b", ⟨0, 3⟩)] : List (String × Entry)).map
            Prod.fst).toFinset).filter
          (fun n => 0 < statsCorrect [("a", ⟨1, 2⟩), ("b", ⟨0, 3⟩)] n)).card :=
  (unique_counts_and_ratio ⟨[("a", ⟨1, 2⟩), ("b", ⟨0, 3⟩)], [], []⟩ [] (by decide)).1

/-- C9 counterexample: the prompt line keeps a trailing tab, because the
code strips only spaces, question marks and the newline, not all
trailing whitespace as the claim states. -/
theorem prompt_tab_not_stripped :
    (question_from_content "q.txt" "1\nQ\t\nA").question = "Q\t" ∧
    specStripTrailingWsQm (((pyLines "1\nQ\t\nA").drop 1).headD "") = "Q" ∧
    ("Q\t" : String) ≠ "Q" := by
  refine ⟨by decide, by decide, by decide⟩

/-- C9 amended: the mask is line 1 with surrounding X and newline
characters stripped; the prompt is line 2 with trailing spaces, question
marks and the newline stripped; the choices are the later lines, each
whitespace-stripped, dropping blank lines and image-tag lines, in
original order; the claim's concrete example parses accordingly. -/
theorem parse_line_rules :
    (∀ (file content : String),
      question_from_content file content
        = { file := file
            question := stripRightChars [' ', '?', '\n']
              (((pyLines content).drop 1).headD "")
            correct_answers := stripChars ['X', '\n'] ((pyLines content).headD "")
            available_answers := (((pyLines content).drop 2).filter
                (fun x => !(stripWs x).data.isEmpty && !is_img_tag x)).map stripWs }) ∧
    (∀ (file content c : String),
      c ∈ (question_from_content file content).available_answers ↔
        ∃ x, x ∈ (pyLines content).drop 2 ∧ (stripWs x).data ≠ [] ∧
          is_img_tag x = false ∧ c = stripWs x) ∧
    ((question_from_content "q.txt" "1\nWhat?\nA\n[img]07.png[/img]\nB").available_answers
        = ["A", "B"] ∧
      correct_indices (question_from_content "q.txt" "1\nWhat?\nA\n[img]07.png[/img]\nB")
        = [1]) := by
  refine ⟨fun file content => rfl, ?_, by decide, by decide⟩
  intro file content c
  simp only [question_from_content, List.mem_map, List.mem_filter,
    Bool.and_eq_true, Bool.not_eq_true']
  constructor
  · rintro ⟨x, ⟨hx, hempty, himg⟩, hc⟩
    refine ⟨x, hx, ?_, himg, hc.symm⟩
    intro hnil
    rw [hnil] at hempty
    simp at hempty
  · rintro ⟨x, hx, hne, himg, hc⟩
    refine ⟨x, ⟨hx, ?_, himg⟩, hc.symm⟩
    cases hd : (stripWs x).data with
    | nil => exact absurd hd hne
    | cons a t => rfl

/-- C10: every parsed digit value is at most 9, so a question whose
correct indices contain a value of 10 or more can never be answered
correctly by any input. -/
theorem high_correct_index_never_answerable :
    (∀ (s : String) (n : Nat), n ∈ parse_user_input s → n ≤ 9) ∧
    (∀ (q : Question) (s : String),
      (∃ i, i ∈ correct_indices q ∧ 10 ≤ i) → answers_ok q s = false) := by
  refine ⟨parsed_digit_le_nine, fun q s hex => ?_⟩
  obtain ⟨i, hi, h10⟩ := hex
  cases heq : answers_ok q s with
  | false => rfl
  | true =>
    exfalso
    simp only [answers_ok, decide_eq_true_eq] at heq
    have hmem : i ∈ parse_user_input s := by
      rw [heq]; exact List.mem_toFinset.mpr hi
    have := parsed_digit_le_nine s i hmem
    omega

/-- C10 witness: a mask whose only correct position is 10 rejects a
concrete input. -/
theorem high_correct_index_never_answerable_w :
    answers_ok ⟨"q.txt", "Q", "0000000001", []⟩ "10" = false :=
  high_correct_index_never_answerable.2 _ "10" ⟨10, by decide, by decide⟩

end Testownik
